import Mathlib

/-!
Verification of the DNA-sequence clustering pipeline (`02_cluster_recordings.py`).

The embedding models:
* `calculate_distance` — the weighted letter/position distance between two
  tagged sequence entries;
* `cluster_sequences`  — threshold-based flood-fill clustering over the
  implicit similarity graph (the Python `while unclustered` loop, with the
  arbitrary set pop order instantiated as lowest-index-first and the
  `to_check` Python list modelled as a stack whose head is the stack top);
* `analyze_clusters`   — the per-cluster summary: 1-based ids in discovery
  order, entry count, average pairwise distance (with the distance
  function's own default weights 2 and 1), then a stable sort by
  `num_entries` descending (Python's stable `list.sort`, modelled by
  `List.mergeSort`).

Python floats appear only in `avg_distance`; the sums involved are integer
valued and the single division is modelled exactly in `ℚ`.
-/

namespace DNASeq

open scoped List

/-- An input entry: `{sequence_id, start_position, sequence}` as produced by
the upstream dissecting step and consumed by the clustering script. -/
structure Entry where
  sequence_id : String
  start_position : Int
  sequence : List Char
  deriving DecidableEq, Inhabited, Repr

/-- `calculate_distance(seq1, seq2, pos1, pos2, letter_weight, position_weight)`:
`letter_weight * (zip-mismatch-count + |len1 - len2|) + position_weight * |pos1 - pos2|`.
The Python defaults are `letter_weight=2, position_weight=1`; call sites that
rely on the defaults pass `2` and `1` explicitly here. -/
def calculate_distance (seq1 seq2 : List Char) (pos1 pos2 : Int)
    (letter_weight position_weight : Nat) : Nat :=
  letter_weight * ((seq1.zip seq2).countP (fun p => decide (p.1 ≠ p.2)) +
      Nat.dist seq1.length seq2.length) +
    position_weight * (pos1 - pos2).natAbs

/-- `dist <= distance_threshold` test between the recordings at indices `i`
and `j`, exactly as in the inner loop of `cluster_sequences`. -/
def near (recs : List Entry) (t lw pw : Nat) (i j : Nat) : Bool :=
  decide (calculate_distance (recs.getD i default).sequence (recs.getD j default).sequence
    (recs.getD i default).start_position (recs.getD j default).start_position lw pw ≤ t)

/-- The inner `while to_check:` loop of `cluster_sequences`: pop `idx` from the
stack, append it to the current cluster, move every still-unclustered `j` with
`near idx j` from `unclustered` onto the stack.  Returns the finished cluster
together with the remaining unclustered indices. -/
def expandLoop (recs : List Entry) (t lw pw : Nat) :
    List Nat → List Nat → List Nat → List Nat × List Nat
  | [], unclustered, current => (current, unclustered)
  | idx :: rest, unclustered, current =>
    expandLoop recs t lw pw
      ((unclustered.filter (fun j => near recs t lw pw idx j)).reverse ++ rest)
      (unclustered.filter (fun j => ! near recs t lw pw idx j))
      (current ++ [idx])
termination_by toCheck unclustered _ => toCheck.length + unclustered.length
decreasing_by
  have h : ∀ (l : List Nat) (p : Nat → Bool),
      (l.filter p).length + (l.filter (fun a => ! p a)).length = l.length := by
    intro l p
    induction l with
    | nil => rfl
    | cons x xs ih => by_cases hx : p x = true <;> simp [List.filter_cons, hx] <;> omega
  have h2 := h unclustered (fun j => near recs t lw pw idx j)
  simp only [List.length_append, List.length_reverse, List.length_cons]
  omega

/-- The outer `while unclustered:` loop of `cluster_sequences`: pop a seed,
flood-fill its cluster with `expandLoop`, append the cluster to the list. -/
def clusterLoop (recs : List Entry) (t lw pw : Nat) :
    List Nat → List (List Nat) → List (List Nat)
  | [], acc => acc
  | seed :: rest, acc =>
    clusterLoop recs t lw pw (expandLoop recs t lw pw [seed] rest []).2
      (acc ++ [(expandLoop recs t lw pw [seed] rest []).1])
termination_by unclustered _ => unclustered.length
decreasing_by
  have h : ∀ tc u c, (expandLoop recs t lw pw tc u c).2.length ≤ u.length := by
    intro tc u c
    induction tc, u, c using expandLoop.induct recs t lw pw with
    | case1 u c => simp [expandLoop]
    | case2 idx rest' u c ih =>
      rw [expandLoop]
      exact le_trans ih (List.length_filter_le _ _)
  have h2 := h [seed] rest []
  simp only [List.length_cons]
  omega

/-- `cluster_sequences(recordings, distance_threshold, letter_weight, position_weight)`:
clusters the index set `0..len(recordings)-1` by flood fill. -/
def cluster_sequences (recs : List Entry) (t lw pw : Nat) : List (List Nat) :=
  clusterLoop recs t lw pw (List.range recs.length) []

/-- One summarized cluster record, as written to `clusters.json`:
`{cluster_id, num_entries, avg_distance, entries}`. -/
structure ClusterReport where
  cluster_id : Nat
  num_entries : Nat
  avg_distance : ℚ
  entries : List Entry
  deriving DecidableEq, Repr

/-- `itertools.combinations(l, 2)`: all pairs of elements of `l` taken in
list order (first component earlier than the second). -/
def comb2 : List α → List (α × α)
  | [] => []
  | x :: xs => xs.map (fun y => (x, y)) ++ comb2 xs

/-- The summary record built for one cluster: the body of
`for i, cluster in enumerate(clusters, start=1)`, with `i` the 1-based
discovery position.  `calculate_distance` is called with no weight arguments
there, so it uses its own defaults `2`/`1`. -/
def clusterRecord (recs : List Entry) (i : Nat) (cluster : List Nat) : ClusterReport :=
  { cluster_id := i
    num_entries := cluster.length
    avg_distance :=
      (((comb2 (cluster.map (fun idx => recs.getD idx default))).map
          (fun p => calculate_distance p.1.sequence p.2.sequence
            p.1.start_position p.2.start_position 2 1)).sum : ℚ) /
        max 1 ((cluster.length : ℚ) * ((cluster.length : ℚ) - 1) / 2)
    entries := cluster.map (fun idx => recs.getD idx default) }

/-- The `cluster_data` list before sorting: one record per cluster, in
discovery order, ids counting up from `i`
(`enumerate(clusters, start=1)` is `clusterData recs 1 clusters`). -/
def clusterData (recs : List Entry) : Nat → List (List Nat) → List ClusterReport
  | _, [] => []
  | i, cl :: cls => clusterRecord recs i cl :: clusterData recs (i + 1) cls

/-- `analyze_clusters(clusters, recordings, ...)` up to the serialization: the
list of per-cluster records in discovery order with 1-based ids, then
`cluster_data.sort(key=lambda x: x['num_entries'], reverse=True)` — a stable
descending sort by entry count. -/
def analyze_clusters (clusters : List (List Nat)) (recs : List Entry) : List ClusterReport :=
  (clusterData recs 1 clusters).mergeSort (fun a b => decide (b.num_entries ≤ a.num_entries))

/-- The similarity-graph edge relation on entry indices: both indices are in
range and the pairwise distance is within the threshold. -/
def Edge (recs : List Entry) (t lw pw : Nat) (i j : Nat) : Prop :=
  i < recs.length ∧ j < recs.length ∧ near recs t lw pw i j = true

/-- Connectivity in the similarity graph: reflexive-transitive closure of
`Edge`. -/
def Reach (recs : List Entry) (t lw pw : Nat) : Nat → Nat → Prop :=
  Relation.ReflTransGen (Edge recs t lw pw)

/-- Fuel-indexed variant of the outer loop, used to state termination: `none`
means the iteration budget ran out before the unclustered pool emptied. -/
def clusterLoopFuel (recs : List Entry) (t lw pw : Nat) :
    Nat → List Nat → List (List Nat) → Option (List (List Nat))
  | _, [], acc => some acc
  | 0, _ :: _, _ => none
  | fuel + 1, seed :: rest, acc =>
    clusterLoopFuel recs t lw pw fuel (expandLoop recs t lw pw [seed] rest []).2
      (acc ++ [(expandLoop recs t lw pw [seed] rest []).1])

/-- Modelled from the spec (§4.3): the mean of `distance(x, y)` over all
unordered pairs `{x, y}` of cluster members, with the given weights, and `0`
for singleton clusters.  Stated independently of the implementation's
`itertools.combinations` traversal, for comparison with it. -/
def specAvgDistance (lw pw : Nat) (members : List Entry) : ℚ :=
  (∑ i ∈ Finset.range members.length, ∑ j ∈ Finset.range members.length,
      if i < j then
        (calculate_distance (members.getD i default).sequence (members.getD j default).sequence
          (members.getD i default).start_position (members.getD j default).start_position
          lw pw : ℚ)
      else 0) /
    max 1 ((members.length : ℚ) * ((members.length : ℚ) - 1) / 2)

/-- Three entries with identical sequences at positions 0, 10 and 20: with
unit weights the pairwise distances are 10, 10 and 20, so with threshold 15
the ends are linked only through the middle entry. -/
def chainRecs : List Entry :=
  [⟨"s1", 0, "ATGAAATAG".toList⟩, ⟨"s2", 10, "ATGAAATAG".toList⟩,
    ⟨"s3", 20, "ATGAAATAG".toList⟩]

/-- One isolated entry followed by two entries near each other: discovered
clusters are `[[0], [1, 2]]`, so discovery order differs from the
size-descending report order. -/
def tieRecs : List Entry :=
  [⟨"a", 0, "AAAA".toList⟩, ⟨"b", 1000, "AAAA".toList⟩, ⟨"c", 1001, "AAAA".toList⟩]

/-- Two entries at the same position whose sequences differ in one letter:
their distance is `letter_weight * 1`, which distinguishes the weights used
for the report from the weights used for clustering. -/
def pairRecs : List Entry :=
  [⟨"a", 0, "AAAA".toList⟩, ⟨"b", 0, "AAAC".toList⟩]

theorem zip_countP_ne_comm (s1 s2 : List Char) :
    (s1.zip s2).countP (fun p => decide (p.1 ≠ p.2)) =
      (s2.zip s1).countP (fun p => decide (p.1 ≠ p.2)) := by
  induction s1 generalizing s2 with
  | nil => cases s2 <;> rfl
  | cons a s1 ih =>
    cases s2 with
    | nil => rfl
    | cons b s2 =>
      simp only [List.zip_cons_cons, List.countP_cons, ih s2]
      congr 1
      simp [ne_comm]

theorem calculate_distance_comm (seq1 seq2 : List Char) (pos1 pos2 : Int) (lw pw : Nat) :
    calculate_distance seq1 seq2 pos1 pos2 lw pw =
      calculate_distance seq2 seq1 pos2 pos1 lw pw := by
  unfold calculate_distance
  rw [zip_countP_ne_comm, Nat.dist_comm, ← Int.natAbs_neg, neg_sub]

theorem near_comm (recs : List Entry) (t lw pw : Nat) (i j : Nat) :
    near recs t lw pw i j = near recs t lw pw j i := by
  unfold near
  rw [calculate_distance_comm]

theorem edge_symm (recs : List Entry) (t lw pw : Nat) :
    Symmetric (Edge recs t lw pw) := by
  intro i j ⟨hi, hj, hn⟩
  exact ⟨hj, hi, (near_comm recs t lw pw j i).trans hn⟩

theorem reach_symm (recs : List Entry) (t lw pw : Nat) {i j : Nat}
    (h : Reach recs t lw pw i j) : Reach recs t lw pw j i :=
  Relation.ReflTransGen.symmetric (edge_symm recs t lw pw) h

/-- The cluster and leftover returned by the flood fill are, together, a
permutation of the current cluster, the stack and the unclustered pool. -/
theorem expandLoop_perm (recs : List Entry) (t lw pw : Nat)
    (toCheck unclustered current : List Nat) :
    List.Perm
      ((expandLoop recs t lw pw toCheck unclustered current).1 ++
        (expandLoop recs t lw pw toCheck unclustered current).2)
      (current ++ toCheck ++ unclustered) := by
  induction toCheck, unclustered, current using expandLoop.induct recs t lw pw with
  | case1 unclustered current => simp [expandLoop]
  | case2 idx rest unclustered current ih =>
    rw [expandLoop]
    refine ih.trans ?_
    have hfilter : (unclustered.filter (fun j => near recs t lw pw idx j)) ++
        (unclustered.filter (fun j => ! near recs t lw pw idx j)) ~ unclustered :=
      List.filter_append_perm _ unclustered
    calc current ++ [idx] ++
          ((unclustered.filter (fun j => near recs t lw pw idx j)).reverse ++ rest) ++
          unclustered.filter (fun j => ! near recs t lw pw idx j)
        ~ current ++ [idx] ++
          ((unclustered.filter (fun j => near recs t lw pw idx j)) ++ rest) ++
          unclustered.filter (fun j => ! near recs t lw pw idx j) := by
          exact ((((List.reverse_perm _).append_right rest).append_left
            (current ++ [idx])).append_right _)
      _ ~ current ++ [idx] ++ (rest ++
            ((unclustered.filter (fun j => near recs t lw pw idx j)) ++
              unclustered.filter (fun j => ! near recs t lw pw idx j))) := by
          simp only [List.append_assoc]
          exact (List.Perm.append_left _ (List.Perm.append_left _
            (List.perm_append_comm_assoc _ _ _)))
      _ ~ current ++ [idx] ++ (rest ++ unclustered) := by
          exact List.Perm.append_left _ (List.Perm.append_left _ hfilter)
      _ ~ current ++ (idx :: rest) ++ unclustered := by
          simp [List.append_assoc]

/-- Everything already in the current cluster or on the stack ends up in the
returned cluster. -/
theorem expandLoop_mem_fst (recs : List Entry) (t lw pw : Nat)
    (toCheck unclustered current : List Nat) (x : Nat)
    (hx : x ∈ current ∨ x ∈ toCheck) :
    x ∈ (expandLoop recs t lw pw toCheck unclustered current).1 := by
  induction toCheck, unclustered, current using expandLoop.induct recs t lw pw with
  | case1 unclustered current =>
    simp only [expandLoop]
    rcases hx with h | h
    · exact h
    · simp at h
  | case2 idx rest unclustered current ih =>
    rw [expandLoop]
    apply ih
    rcases hx with h | h
    · exact Or.inl (List.mem_append_left _ h)
    · rcases List.mem_cons.mp h with rfl | h
      · exact Or.inl (List.mem_append_right _ (List.mem_singleton.mpr rfl))
      · exact Or.inr (List.mem_append_right _ h)

/-- The leftover unclustered pool is a sublist of the original one. -/
theorem expandLoop_snd_sublist (recs : List Entry) (t lw pw : Nat)
    (toCheck unclustered current : List Nat) :
    (expandLoop recs t lw pw toCheck unclustered current).2 <+ unclustered := by
  induction toCheck, unclustered, current using expandLoop.induct recs t lw pw with
  | case1 unclustered current => simp [expandLoop]
  | case2 idx rest unclustered current ih =>
    rw [expandLoop]
    exact ih.trans (List.filter_sublist _)

/-- Closure invariant: if nothing in the current cluster is near the
unclustered pool, then nothing in the returned cluster is near the returned
pool. -/
theorem expandLoop_closed (recs : List Entry) (t lw pw : Nat)
    (toCheck unclustered current : List Nat)
    (h : ∀ x ∈ current, ∀ y ∈ unclustered, near recs t lw pw x y = false) :
    ∀ x ∈ (expandLoop recs t lw pw toCheck unclustered current).1,
      ∀ y ∈ (expandLoop recs t lw pw toCheck unclustered current).2,
        near recs t lw pw x y = false := by
  induction toCheck, unclustered, current using expandLoop.induct recs t lw pw with
  | case1 unclustered current => simpa [expandLoop] using h
  | case2 idx rest unclustered current ih =>
    rw [expandLoop]
    apply ih
    intro x hx y hy
    rcases List.mem_append.mp hx with hx | hx
    · exact h x hx y (List.mem_of_mem_filter hy)
    · obtain rfl : x = idx := List.mem_singleton.mp hx
      have := (List.mem_filter.mp hy).2
      simpa using this

/-- Reachability invariant: if every stacked and already-collected index is
reachable from `i0`, and all indices in play are in range, every index of the
returned cluster is reachable from `i0`. -/
theorem expandLoop_reach (recs : List Entry) (t lw pw : Nat)
    (toCheck unclustered current : List Nat) (i0 : Nat)
    (htc : ∀ x ∈ toCheck, Reach recs t lw pw i0 x)
    (hcur : ∀ x ∈ current, Reach recs t lw pw i0 x)
    (htcn : ∀ x ∈ toCheck, x < recs.length)
    (hun : ∀ x ∈ unclustered, x < recs.length) :
    ∀ x ∈ (expandLoop recs t lw pw toCheck unclustered current).1,
      Reach recs t lw pw i0 x := by
  induction toCheck, unclustered, current using expandLoop.induct recs t lw pw with
  | case1 unclustered current => simpa [expandLoop] using hcur
  | case2 idx rest unclustered current ih =>
    rw [expandLoop]
    have hidx : Reach recs t lw pw i0 idx := htc idx (List.mem_cons_self _ _)
    have hidxn : idx < recs.length := htcn idx (List.mem_cons_self _ _)
    apply ih
    · intro x hx
      rcases List.mem_append.mp hx with hx | hx
      · have hx := List.mem_reverse.mp hx
        have hmem := List.mem_of_mem_filter hx
        have hnear := (List.mem_filter.mp hx).2
        exact hidx.tail ⟨hidxn, hun x hmem, hnear⟩
      · exact htc x (List.mem_cons_of_mem _ hx)
    · intro x hx
      rcases List.mem_append.mp hx with hx | hx
      · exact hcur x hx
      · obtain rfl : x = idx := List.mem_singleton.mp hx
        exact hidx
    · intro x hx
      rcases List.mem_append.mp hx with hx | hx
      · exact hun x (List.mem_of_mem_filter (List.mem_reverse.mp hx))
      · exact htcn x (List.mem_cons_of_mem _ hx)
    · intro x hx
      exact hun x (List.mem_of_mem_filter hx)

/-- The clusters accumulated by the outer loop carry, all together, exactly
the indices already accumulated plus the unclustered pool. -/
theorem clusterLoop_flatten_perm (recs : List Entry) (t lw pw : Nat)
    (unclustered : List Nat) (acc : List (List Nat)) :
    List.Perm (clusterLoop recs t lw pw unclustered acc).flatten
      (acc.flatten ++ unclustered) := by
  induction unclustered, acc using clusterLoop.induct recs t lw pw with
  | case1 acc => simp [clusterLoop]
  | case2 seed rest acc ih =>
    rw [clusterLoop]
    refine ih.trans ?_
    have h := expandLoop_perm recs t lw pw [seed] rest []
    simp only [List.flatten_append, List.flatten_cons, List.flatten_nil,
      List.append_nil, List.append_assoc]
    exact List.Perm.append_left _ (by simpa using h)

/-- The full run partitions the index set: flattening the returned clusters
is a permutation of `range n`. -/
theorem cluster_sequences_flatten_perm (recs : List Entry) (t lw pw : Nat) :
    List.Perm (cluster_sequences recs t lw pw).flatten (List.range recs.length) := by
  simpa using clusterLoop_flatten_perm recs t lw pw (List.range recs.length) []

/-- No index of any returned cluster is near any index of a later returned
cluster. -/
theorem clusterLoop_pairwise_far (recs : List Entry) (t lw pw : Nat)
    (unclustered : List Nat) (acc : List (List Nat))
    (hacc : ∀ cl ∈ acc, ∀ x ∈ cl, ∀ y ∈ unclustered, near recs t lw pw x y = false)
    (hpair : acc.Pairwise (fun c1 c2 => ∀ x ∈ c1, ∀ y ∈ c2, near recs t lw pw x y = false)) :
    (clusterLoop recs t lw pw unclustered acc).Pairwise
      (fun c1 c2 => ∀ x ∈ c1, ∀ y ∈ c2, near recs t lw pw x y = false) := by
  induction unclustered, acc using clusterLoop.induct recs t lw pw with
  | case1 acc => simpa [clusterLoop] using hpair
  | case2 seed rest acc ih =>
    rw [clusterLoop]
    have hclperm := expandLoop_perm recs t lw pw [seed] rest []
    have hclmem : ∀ x ∈ (expandLoop recs t lw pw [seed] rest []).1, x ∈ seed :: rest := by
      intro x hx
      have := hclperm.mem_iff.mp (List.mem_append_left _ hx)
      simpa using this
    have hsnd : ∀ y ∈ (expandLoop recs t lw pw [seed] rest []).2, y ∈ rest :=
      fun y hy => (expandLoop_snd_sublist recs t lw pw [seed] rest []).mem hy
    apply ih
    · intro cl hcl x hx y hy
      rcases List.mem_append.mp hcl with hcl | hcl
      · exact hacc cl hcl x hx y (List.mem_cons_of_mem _ (hsnd y hy))
      · obtain rfl : cl = (expandLoop recs t lw pw [seed] rest []).1 :=
          List.mem_singleton.mp hcl
        exact expandLoop_closed recs t lw pw [seed] rest [] (by simp) x hx y hy
    · rw [List.pairwise_append]
      refine ⟨hpair, List.pairwise_singleton _ _, ?_⟩
      intro c1 h1 c2 h2 x hx y hy
      obtain rfl : c2 = (expandLoop recs t lw pw [seed] rest []).1 :=
        List.mem_singleton.mp h2
      exact hacc c1 h1 x hx y (hclmem y hy)

/-- Every returned cluster contains a member from which every member is
reachable in the similarity graph. -/
theorem clusterLoop_reach (recs : List Entry) (t lw pw : Nat)
    (unclustered : List Nat) (acc : List (List Nat))
    (hun : ∀ x ∈ unclustered, x < recs.length)
    (hacc : ∀ cl ∈ acc, ∃ i, i ∈ cl ∧ ∀ x ∈ cl, Reach recs t lw pw i x) :
    ∀ cl ∈ clusterLoop recs t lw pw unclustered acc,
      ∃ i, i ∈ cl ∧ ∀ x ∈ cl, Reach recs t lw pw i x := by
  induction unclustered, acc using clusterLoop.induct recs t lw pw with
  | case1 acc => simpa [clusterLoop] using hacc
  | case2 seed rest acc ih =>
    rw [clusterLoop]
    have hsnd : ∀ y ∈ (expandLoop recs t lw pw [seed] rest []).2, y ∈ rest :=
      fun y hy => (expandLoop_snd_sublist recs t lw pw [seed] rest []).mem hy
    apply ih
    · intro x hx
      exact hun x (List.mem_cons_of_mem _ (hsnd x hx))
    · intro cl hcl
      rcases List.mem_append.mp hcl with hcl | hcl
      · exact hacc cl hcl
      · obtain rfl : cl = (expandLoop recs t lw pw [seed] rest []).1 :=
          List.mem_singleton.mp hcl
        refine ⟨seed, expandLoop_mem_fst recs t lw pw [seed] rest [] seed
          (Or.inr (List.mem_singleton.mpr rfl)), ?_⟩
        apply expandLoop_reach recs t lw pw [seed] rest [] seed
        · intro x hx
          obtain rfl : x = seed := List.mem_singleton.mp hx
          exact Relation.ReflTransGen.refl
        · intro x hx
          simp at hx
        · intro x hx
          obtain rfl : x = seed := List.mem_singleton.mp hx
          exact hun _ (List.mem_cons_self _ _)
        · intro x hx
          exact hun x (List.mem_cons_of_mem _ hx)

/-- Distinct returned clusters have no near pair between them. -/
theorem cluster_sequences_far (recs : List Entry) (t lw pw : Nat) :
    (cluster_sequences recs t lw pw).Pairwise
      (fun c1 c2 => ∀ x ∈ c1, ∀ y ∈ c2, near recs t lw pw x y = false) :=
  clusterLoop_pairwise_far recs t lw pw (List.range recs.length) []
    (by intro cl hcl; simp at hcl) List.Pairwise.nil

/-- Being far apart (no near pair) is a symmetric relation on clusters. -/
theorem far_symm (recs : List Entry) (t lw pw : Nat) :
    Symmetric (fun c1 c2 : List Nat => ∀ x ∈ c1, ∀ y ∈ c2, near recs t lw pw x y = false) := by
  intro c1 c2 h x hx y hy
  rw [near_comm]
  exact h y hy x hx

/-- Each returned cluster is exactly a connected component of the similarity
graph: it contains a member `i` such that membership in the cluster is
equivalent to being an in-range index reachable from `i`. -/
theorem cluster_sequences_component (recs : List Entry) (t lw pw : Nat) :
    ∀ cl ∈ cluster_sequences recs t lw pw, ∃ i, i ∈ cl ∧
      ∀ j, (j ∈ cl ↔ j < recs.length ∧ Reach recs t lw pw i j) := by
  intro cl hcl
  have hperm := cluster_sequences_flatten_perm recs t lw pw
  have hreach := clusterLoop_reach recs t lw pw (List.range recs.length) []
    (by intro x hx; simpa using hx) (by intro cl hcl; simp at hcl) cl hcl
  obtain ⟨i, hi, hir⟩ := hreach
  refine ⟨i, hi, fun j => ⟨fun hj => ?_, fun hj => ?_⟩⟩
  · refine ⟨?_, hir j hj⟩
    have : j ∈ (cluster_sequences recs t lw pw).flatten :=
      List.mem_flatten_of_mem hcl hj
    simpa using hperm.mem_iff.mp this
  · obtain ⟨hjn, hjr⟩ := hj
    clear hjn
    induction hjr with
    | refl => exact hi
    | tail hb he ih =>
      rename_i b c
      obtain ⟨hbn, hcn, hnear⟩ := he
      have hb_mem : b ∈ cl := ih
      have : c ∈ (cluster_sequences recs t lw pw).flatten := by
        rw [hperm.mem_iff]
        simpa using hcn
      obtain ⟨cl', hcl', hc'⟩ := List.mem_flatten.mp this
      by_cases hEq : cl' = cl
      · exact hEq ▸ hc'
      · exfalso
        have hfar := (cluster_sequences_far recs t lw pw).forall (far_symm recs t lw pw)
          hcl' hcl (fun h => hEq h)
        have hfalse := hfar c hc' b hb_mem
        rw [near_comm] at hfalse
        rw [hnear] at hfalse
        simp at hfalse

/-- Raising the threshold preserves nearness. -/
theorem near_mono (recs : List Entry) (lw pw : Nat) {t1 t2 : Nat} (h : t1 ≤ t2)
    {i j : Nat} (hn : near recs t1 lw pw i j = true) : near recs t2 lw pw i j = true := by
  simp only [near, decide_eq_true_eq] at hn ⊢
  omega

/-- Raising the threshold preserves reachability in the similarity graph. -/
theorem reach_mono (recs : List Entry) (lw pw : Nat) {t1 t2 : Nat} (h : t1 ≤ t2)
    {i j : Nat} (hr : Reach recs t1 lw pw i j) : Reach recs t2 lw pw i j := by
  refine Relation.ReflTransGen.mono ?_ hr
  intro a b ⟨ha, hb, hn⟩
  exact ⟨ha, hb, near_mono recs lw pw h hn⟩

/-- A cluster at the lower threshold that meets a cluster at the higher
threshold is contained in it. -/
theorem low_cluster_subset (recs : List Entry) (lw pw : Nat) {t1 t2 : Nat} (h : t1 ≤ t2)
    {cl1 cl2 : List Nat}
    (h1 : cl1 ∈ cluster_sequences recs t1 lw pw)
    (h2 : cl2 ∈ cluster_sequences recs t2 lw pw)
    {x : Nat} (hx1 : x ∈ cl1) (hx2 : x ∈ cl2) :
    ∀ y ∈ cl1, y ∈ cl2 := by
  obtain ⟨i1, hi1, hiff1⟩ := cluster_sequences_component recs t1 lw pw cl1 h1
  obtain ⟨i2, hi2, hiff2⟩ := cluster_sequences_component recs t2 lw pw cl2 h2
  intro y hy
  have hyx : Reach recs t2 lw pw x y := by
    have hx := reach_mono recs lw pw h ((hiff1 x).mp hx1).2
    have hyr := reach_mono recs lw pw h ((hiff1 y).mp hy).2
    exact (reach_symm recs t2 lw pw hx).trans hyr
  have h2x : Reach recs t2 lw pw i2 x := ((hiff2 x).mp hx2).2
  exact (hiff2 y).mpr ⟨((hiff1 y).mp hy).1, h2x.trans hyx⟩

/-- The flattened cluster list has no duplicate indices. -/
theorem cluster_sequences_flatten_nodup (recs : List Entry) (t lw pw : Nat) :
    (cluster_sequences recs t lw pw).flatten.Nodup :=
  (cluster_sequences_flatten_perm recs t lw pw).nodup_iff.mpr (List.nodup_range _)

/-- Distinct returned clusters are disjoint. -/
theorem cluster_sequences_disjoint (recs : List Entry) (t lw pw : Nat) :
    (cluster_sequences recs t lw pw).Pairwise List.Disjoint :=
  (List.nodup_flatten.mp (cluster_sequences_flatten_nodup recs t lw pw)).2

/-- Raising the threshold can only reduce the number of clusters. -/
theorem cluster_count_anti (recs : List Entry) (lw pw : Nat) {t1 t2 : Nat} (h : t1 ≤ t2) :
    (cluster_sequences recs t2 lw pw).length ≤ (cluster_sequences recs t1 lw pw).length := by
  classical
  have comp2 := cluster_sequences_component recs t2 lw pw
  have perm1 := cluster_sequences_flatten_perm recs t1 lw pw
  have disj2 := cluster_sequences_disjoint recs t2 lw pw
  have H : ∀ k : Fin (cluster_sequences recs t2 lw pw).length,
      ∃ l : Fin (cluster_sequences recs t1 lw pw).length, ∃ x,
        x ∈ (cluster_sequences recs t2 lw pw).get k ∧
          x ∈ (cluster_sequences recs t1 lw pw).get l := by
    intro k
    have hmem : (cluster_sequences recs t2 lw pw).get k ∈ cluster_sequences recs t2 lw pw :=
      List.get_mem _ _ _
    obtain ⟨i, hi, hiff⟩ := comp2 _ hmem
    have hin : i < recs.length := ((hiff i).mp hi).1
    have : i ∈ (cluster_sequences recs t1 lw pw).flatten := by
      rw [perm1.mem_iff]
      simpa using hin
    obtain ⟨cl1, hcl1, hi1⟩ := List.mem_flatten.mp this
    obtain ⟨l, hl⟩ := List.mem_iff_get.mp hcl1
    exact ⟨l, i, hi, by rw [hl]; exact hi1⟩
  choose f x hx2 hx1 using H
  have hinj : Function.Injective f := by
    intro k k' hkk
    by_contra hne
    have hmemk : (cluster_sequences recs t2 lw pw).get k ∈ cluster_sequences recs t2 lw pw :=
      List.get_mem _ _ _
    have hmemk' : (cluster_sequences recs t2 lw pw).get k' ∈ cluster_sequences recs t2 lw pw :=
      List.get_mem _ _ _
    have hmem1 : (cluster_sequences recs t1 lw pw).get (f k) ∈ cluster_sequences recs t1 lw pw :=
      List.get_mem _ _ _
    have h1k' : x k' ∈ (cluster_sequences recs t1 lw pw).get (f k) := by
      rw [hkk]
      exact hx1 k'
    have hsub_k' := low_cluster_subset recs lw pw h hmem1 hmemk' h1k' (hx2 k')
    have hxk_in_k' : x k ∈ (cluster_sequences recs t2 lw pw).get k' := hsub_k' _ (hx1 k)
    have hxk_in_k : x k ∈ (cluster_sequences recs t2 lw pw).get k := hx2 k
    have hne' : (k : Nat) ≠ (k' : Nat) := fun hv => hne (Fin.ext hv)
    rcases Nat.lt_or_ge (k : Nat) (k' : Nat) with hlt | hge
    · have hdis := List.pairwise_iff_getElem.mp disj2 k k' k.isLt k'.isLt hlt
      exact hdis (by simpa [List.get_eq_getElem] using hxk_in_k)
        (by simpa [List.get_eq_getElem] using hxk_in_k')
    · have hlt' : (k' : Nat) < (k : Nat) := lt_of_le_of_ne hge (Ne.symm hne')
      have hdis := List.pairwise_iff_getElem.mp disj2 k' k k'.isLt k.isLt hlt'
      exact hdis (by simpa [List.get_eq_getElem] using hxk_in_k')
        (by simpa [List.get_eq_getElem] using hxk_in_k)
  have := Fintype.card_le_of_injective f hinj
  simpa using this

/-- One pass of the outer loop strictly shrinks the unclustered pool. -/
theorem expandLoop_strict_shrink (recs : List Entry) (t lw pw : Nat) (seed : Nat)
    (rest : List Nat) :
    (expandLoop recs t lw pw [seed] rest []).2.length < (seed :: rest).length := by
  have h := (expandLoop_snd_sublist recs t lw pw [seed] rest []).length_le
  simp only [List.length_cons]
  omega

/-- With fuel at least the size of the unclustered pool, the fuel-indexed
outer loop completes and agrees with the unbounded one. -/
theorem clusterLoopFuel_complete (recs : List Entry) (t lw pw : Nat) :
    ∀ (fuel : Nat) (uncl : List Nat) (acc : List (List Nat)), uncl.length ≤ fuel →
      clusterLoopFuel recs t lw pw fuel uncl acc =
        some (clusterLoop recs t lw pw uncl acc) := by
  intro fuel
  induction fuel with
  | zero =>
    intro uncl acc h
    have : uncl = [] := List.eq_nil_of_length_eq_zero (Nat.le_zero.mp h)
    subst this
    simp [clusterLoopFuel, clusterLoop]
  | succ fuel ih =>
    intro uncl acc h
    match uncl with
    | [] => simp [clusterLoopFuel, clusterLoop]
    | seed :: rest =>
      rw [clusterLoopFuel, clusterLoop]
      apply ih
      have h2 := (expandLoop_snd_sublist recs t lw pw [seed] rest []).length_le
      simp only [List.length_cons] at h
      omega

/-- Every returned cluster is non-empty. -/
theorem cluster_sequences_nonempty (recs : List Entry) (t lw pw : Nat) :
    ∀ cl ∈ cluster_sequences recs t lw pw, cl ≠ [] := by
  intro cl hcl
  obtain ⟨i, hi, _⟩ := cluster_sequences_component recs t lw pw cl hcl
  exact List.ne_nil_of_mem hi

/-- The empty input produces the empty cluster list. -/
theorem cluster_sequences_nil (t lw pw : Nat) :
    cluster_sequences [] t lw pw = [] := by
  simp [cluster_sequences, clusterLoop]

/-- A one-entry input produces exactly one cluster, `[0]`. -/
theorem cluster_sequences_singleton (e : Entry) (t lw pw : Nat) :
    cluster_sequences [e] t lw pw = [[0]] := by
  simp [cluster_sequences, clusterLoop, expandLoop, List.range_succ]

/-- The zip-based mismatch count equals the position-indexed mismatch count
over the length of the shorter sequence. -/
theorem zip_countP_eq_sum_range (s1 s2 : List Char) :
    (s1.zip s2).countP (fun p => decide (p.1 ≠ p.2)) =
      ∑ i ∈ Finset.range (min s1.length s2.length),
        if s1.getD i 'A' ≠ s2.getD i 'A' then 1 else 0 := by
  induction s1 generalizing s2 with
  | nil => cases s2 <;> rfl
  | cons a s1 ih =>
    cases s2 with
    | nil => rfl
    | cons b s2 =>
      have hmin : min (a :: s1).length (b :: s2).length = min s1.length s2.length + 1 := by
        simp [Nat.succ_min_succ]
      rw [hmin, Finset.sum_range_succ']
      simp only [List.zip_cons_cons, List.countP_cons, List.getD_cons_succ, List.getD_cons_zero]
      rw [ih s2]
      by_cases h : a = b <;> simp [h]

/-- `Nat.dist` is the absolute difference: larger minus smaller. -/
theorem nat_dist_eq_max_sub_min (a b : Nat) : Nat.dist a b = max a b - min a b := by
  rcases Nat.le_total a b with h | h <;>
    simp [Nat.dist, Nat.max_def, Nat.min_def, h]

/-- `(l.map g).sum` as a position-indexed sum. -/
theorem map_sum_eq_sum_range (g : α → Nat) (l : List α) (d : α) :
    (l.map g).sum = ∑ i ∈ Finset.range l.length, g (l.getD i d) := by
  induction l with
  | nil => rfl
  | cons x xs ih =>
    rw [List.length_cons, Finset.sum_range_succ']
    simp only [List.map_cons, List.sum_cons, List.getD_cons_succ, List.getD_cons_zero]
    rw [ih]
    omega

/-- The `combinations(l, 2)` sum equals the double sum over index pairs
`i < j`. -/
theorem comb2_map_sum (f : α → α → Nat) (l : List α) (d : α) :
    ((comb2 l).map (fun p => f p.1 p.2)).sum =
      ∑ i ∈ Finset.range l.length, ∑ j ∈ Finset.range l.length,
        if i < j then f (l.getD i d) (l.getD j d) else 0 := by
  induction l with
  | nil => rfl
  | cons x xs ih =>
    rw [List.length_cons, Finset.sum_range_succ']
    simp only [List.getD_cons_succ, List.getD_cons_zero]
    have hrow0 : (∑ j ∈ Finset.range (xs.length + 1),
        if 0 < j then f x ((x :: xs).getD j d) else 0) = (xs.map (f x)).sum := by
      rw [Finset.sum_range_succ']
      simp only [List.getD_cons_succ, List.getD_cons_zero, Nat.zero_lt_succ, if_true,
        lt_self_iff_false, if_false, add_zero]
      rw [map_sum_eq_sum_range (f x) xs d]
    have hrows : ∀ k, (∑ j ∈ Finset.range (xs.length + 1),
        if k + 1 < j then f (xs.getD k d) ((x :: xs).getD j d) else 0) =
          ∑ j ∈ Finset.range xs.length, if k < j then f (xs.getD k d) (xs.getD j d) else 0 := by
      intro k
      rw [Finset.sum_range_succ']
      simp [Nat.succ_lt_succ_iff]
    simp only [hrows, hrow0]
    simp only [comb2, List.map_append, List.sum_append, List.map_map]
    rw [ih]
    have hfst : ((xs.map (fun y => (x, y))).map (fun p => f p.1 p.2)).sum =
        (xs.map (f x)).sum := by
      rw [List.map_map]
      rfl
    simp only [List.map_map] at hfst
    omega

/-- The report's average distance is exactly the spec-side mean over
unordered pairs — with the distance function's default weights `2`/`1`. -/
theorem clusterRecord_avg (recs : List Entry) (i : Nat) (cluster : List Nat) :
    (clusterRecord recs i cluster).avg_distance =
      specAvgDistance 2 1 ((clusterRecord recs i cluster).entries) := by
  simp only [clusterRecord, specAvgDistance, List.length_map]
  congr 1
  have h := comb2_map_sum
    (fun e1 e2 => calculate_distance e1.sequence e2.sequence
      e1.start_position e2.start_position 2 1)
    (cluster.map (fun idx => recs.getD idx default)) default
  rw [show ((cluster.map (fun idx => recs.getD idx default)).length) = cluster.length from
    List.length_map _ _] at h
  rw [h]
  rw [Nat.cast_sum]
  refine Finset.sum_congr rfl ?_
  intro a _
  rw [Nat.cast_sum]
  refine Finset.sum_congr rfl ?_
  intro b _
  split_ifs <;> simp

/-- A singleton cluster's report has average distance `0`. -/
theorem clusterRecord_singleton_avg (recs : List Entry) (i : Nat) (cluster : List Nat)
    (h : cluster.length = 1) : (clusterRecord recs i cluster).avg_distance = 0 := by
  obtain ⟨x, rfl⟩ := List.length_eq_one.mp h
  simp [clusterRecord, comb2]

/-- Membership in the pre-sort report list: every record is the record of
one of the clusters, with some id. -/
theorem clusterData_mem (recs : List Entry) :
    ∀ (i : Nat) (cls : List (List Nat)) (r : ClusterReport), r ∈ clusterData recs i cls →
      ∃ k cl, cl ∈ cls ∧ r = clusterRecord recs k cl := by
  intro i cls
  induction cls generalizing i with
  | nil => intro r hr; simp [clusterData] at hr
  | cons cl cls ih =>
    intro r hr
    rw [clusterData, List.mem_cons] at hr
    rcases hr with rfl | hr
    · exact ⟨i, cl, List.mem_cons_self _ _, rfl⟩
    · obtain ⟨k, cl', hcl', hr⟩ := ih (i + 1) r hr
      exact ⟨k, cl', List.mem_cons_of_mem _ hcl', hr⟩

/-- The ids of the pre-sort report list are consecutive, counting from the
start id: discovery order. -/
theorem clusterData_map_id (recs : List Entry) :
    ∀ (i : Nat) (cls : List (List Nat)),
      (clusterData recs i cls).map (fun r => r.cluster_id) = List.range' i cls.length := by
  intro i cls
  induction cls generalizing i with
  | nil => rfl
  | cons cl cls ih =>
    rw [clusterData, List.length_cons, List.range'_succ, List.map_cons, ih (i + 1)]
    rfl

/-- The records of the pre-sort report list mirror the clusters one-to-one. -/
theorem clusterData_length (recs : List Entry) :
    ∀ (i : Nat) (cls : List (List Nat)), (clusterData recs i cls).length = cls.length := by
  intro i cls
  induction cls generalizing i with
  | nil => rfl
  | cons cl cls ih => rw [clusterData, List.length_cons, List.length_cons, ih (i + 1)]

/-- The sort comparator is transitive. -/
theorem reportLE_trans : ∀ a b c : ClusterReport,
    (fun a b : ClusterReport => decide (b.num_entries ≤ a.num_entries)) a b = true →
    (fun a b : ClusterReport => decide (b.num_entries ≤ a.num_entries)) b c = true →
    (fun a b : ClusterReport => decide (b.num_entries ≤ a.num_entries)) a c = true := by
  intro a b c h1 h2
  simp only [decide_eq_true_eq] at h1 h2 ⊢
  omega

/-- The sort comparator is total. -/
theorem reportLE_total : ∀ a b : ClusterReport,
    ((fun a b : ClusterReport => decide (b.num_entries ≤ a.num_entries)) a b ||
      (fun a b : ClusterReport => decide (b.num_entries ≤ a.num_entries)) b a) = true := by
  intro a b
  rcases Nat.le_total a.num_entries b.num_entries with h | h <;> simp [h]

/-- The summarized report is a permutation of the pre-sort report list. -/
theorem analyze_clusters_perm (clusters : List (List Nat)) (recs : List Entry) :
    List.Perm (analyze_clusters clusters recs) (clusterData recs 1 clusters) :=
  List.mergeSort_perm _ _

/-- The summarized report is ordered by `num_entries` descending. -/
theorem analyze_clusters_sorted (clusters : List (List Nat)) (recs : List Entry) :
    (analyze_clusters clusters recs).Pairwise
      (fun a b => b.num_entries ≤ a.num_entries) := by
  have h := List.sorted_mergeSort reportLE_trans reportLE_total (clusterData recs 1 clusters)
  exact h.imp (fun hab => by simpa using hab)

/-- A two-element sublist occupies two increasing positions. -/
theorem pair_sublist_positions {l : List α} {a b : α} (h : List.Sublist [a, b] l) :
    ∃ i j : Fin l.length, (i : Nat) < (j : Nat) ∧ l.get i = a ∧ l.get j = b := by
  obtain ⟨is, hmap, hpw⟩ := List.sublist_eq_map_getElem h
  match is, hmap, hpw with
  | [i, j], hmap, hpw =>
    refine ⟨i, j, ?_, ?_, ?_⟩
    · have : i < j := List.rel_of_pairwise_cons hpw (List.mem_singleton.mpr rfl)
      exact this
    · simpa [List.get_eq_getElem] using (List.cons.injEq _ _ _ _ ▸ hmap).1.symm
    · have := (List.cons.injEq _ _ _ _ ▸ hmap).2
      simpa [List.get_eq_getElem] using ((List.cons.injEq _ _ _ _ ▸ this).1).symm

/-- Two increasing positions give a two-element sublist. -/
theorem get_pair_sublist (l : List α) (i j : Fin l.length) (hij : (i : Nat) < (j : Nat)) :
    List.Sublist [l.get i, l.get j] l := by
  have hpw : List.Pairwise (fun a b : Fin l.length => a < b) [i, j] :=
    List.Pairwise.cons
      (fun y hy => by
        rw [List.mem_singleton] at hy
        subst hy
        exact Fin.lt_def.mpr hij)
      (List.pairwise_singleton _ _)
  have h := List.map_getElem_sublist hpw
  simp only [List.map_cons, List.map_nil] at h
  simpa [List.get_eq_getElem, Fin.getElem_fin] using h

/-- In a duplicate-free list, `[a, b]` and `[b, a]` cannot both be sublists
unless `a = b`. -/
theorem sublist_pair_antisymm {l : List α} (hnd : l.Nodup) {a b : α}
    (h1 : List.Sublist [a, b] l) (h2 : List.Sublist [b, a] l) : a = b := by
  obtain ⟨i1, j1, hij1, ha1, hb1⟩ := pair_sublist_positions h1
  obtain ⟨i2, j2, hij2, hb2, ha2⟩ := pair_sublist_positions h2
  have e1 : i1 = j2 := hnd.get_inj_iff.mp (ha1.trans ha2.symm)
  have e2 : j1 = i2 := hnd.get_inj_iff.mp (hb1.trans hb2.symm)
  have v1 : (i1 : Nat) = (j2 : Nat) := congrArg Fin.val e1
  have v2 : (j1 : Nat) = (i2 : Nat) := congrArg Fin.val e2
  omega

/-- The id of the record at position `k` of the pre-sort list is the start id
plus `k`. -/
theorem clusterData_get_id (recs : List Entry) :
    ∀ (i : Nat) (cls : List (List Nat)) (k : Fin (clusterData recs i cls).length),
      ((clusterData recs i cls).get k).cluster_id = i + (k : Nat) := by
  intro i cls
  induction cls generalizing i with
  | nil => intro k; exact absurd k.isLt (by simp [clusterData])
  | cons cl cls ih =>
    intro k
    match k with
    | ⟨0, h0⟩ => simp [clusterData, clusterRecord]
    | ⟨j + 1, hj⟩ =>
      have hlt : j < (clusterData recs (i + 1) cls).length := by
        have := hj
        rw [clusterData, List.length_cons] at this
        omega
      have := ih (i + 1) ⟨j, hlt⟩
      simp only [clusterData, List.get_cons_succ] at this ⊢
      rw [this]
      omega

/-- When two records in the summarized report tie on `num_entries`, they keep
discovery order: the earlier one carries the smaller id (Python's sort is
stable). -/
theorem analyze_clusters_stable (clusters : List (List Nat)) (recs : List Entry) :
    (analyze_clusters clusters recs).Pairwise
      (fun a b => a.num_entries = b.num_entries → a.cluster_id < b.cluster_id) := by
  rw [List.pairwise_iff_forall_sublist]
  intro a b hab hEq
  have hids := clusterData_map_id recs 1 clusters
  have hnd_map : ((clusterData recs 1 clusters).map (fun r => r.cluster_id)).Nodup := by
    rw [hids]
    exact List.nodup_range' _ _
  have hnd : (clusterData recs 1 clusters).Nodup := List.Nodup.of_map _ hnd_map
  have hres_nd : (analyze_clusters clusters recs).Nodup :=
    (analyze_clusters_perm clusters recs).nodup_iff.mpr hnd
  have hne : a ≠ b := List.pairwise_iff_forall_sublist.mp hres_nd hab
  have hamem : a ∈ clusterData recs 1 clusters :=
    (analyze_clusters_perm clusters recs).subset (hab.subset (by simp))
  have hbmem : b ∈ clusterData recs 1 clusters :=
    (analyze_clusters_perm clusters recs).subset (hab.subset (by simp))
  obtain ⟨ia, hia⟩ := List.mem_iff_get.mp hamem
  obtain ⟨ib, hib⟩ := List.mem_iff_get.mp hbmem
  have haid : a.cluster_id = 1 + (ia : Nat) := by
    rw [← hia]
    exact clusterData_get_id recs 1 clusters ia
  have hbid : b.cluster_id = 1 + (ib : Nat) := by
    rw [← hib]
    exact clusterData_get_id recs 1 clusters ib
  rcases Nat.lt_or_ge a.cluster_id b.cluster_id with hlt | hge
  · exact hlt
  · exfalso
    have hne_id : b.cluster_id ≠ a.cluster_id := by
      intro hid
    -- equal ids force equal positions, hence `a = b`
      apply hne
      rw [← hia, ← hib]
      have : (ia : Nat) = (ib : Nat) := by omega
      exact congrArg _ (Fin.ext this)
    have hislt : (ib : Nat) < (ia : Nat) := by
      have : b.cluster_id < a.cluster_id := lt_of_le_of_ne hge hne_id
      omega
    have hsub : List.Sublist [b, a] (clusterData recs 1 clusters) := by
      have h := get_pair_sublist (clusterData recs 1 clusters) ib ia hislt
      rw [hib, hia] at h
      exact h
    have hle : (fun a b : ClusterReport => decide (b.num_entries ≤ a.num_entries)) b a = true := by
      simp [hEq]
    have hres : List.Sublist [b, a] (analyze_clusters clusters recs) :=
      List.pair_sublist_mergeSort reportLE_trans reportLE_total hle hsub
    exact hne (sublist_pair_antisymm hres_nd hres hab).symm

/-- C1: for every input entry list, every threshold and every weight pair,
the clusters returned by `cluster_sequences` partition the input index set —
flattening them yields every index `0..n-1` exactly once (no duplicates
within or across clusters, no omissions). -/
theorem claim_C1_partition (recs : List Entry) (t lw pw : Nat) :
    List.Perm (cluster_sequences recs t lw pw).flatten (List.range recs.length) :=
  cluster_sequences_flatten_perm recs t lw pw

/-- C2: every returned cluster is exactly a connected component of the
similarity graph whose edges join index pairs within the threshold —
membership in the cluster is equivalent to in-range reachability from one of
its members, so chained entries land together even when their direct
distance exceeds the threshold. -/
theorem claim_C2_connected_components (recs : List Entry) (t lw pw : Nat) :
    ∀ cl ∈ cluster_sequences recs t lw pw, ∃ i, i ∈ cl ∧
      ∀ j, (j ∈ cl ↔ j < recs.length ∧ Reach recs t lw pw i j) :=
  cluster_sequences_component recs t lw pw

/-- C2 witness: three identical sequences at positions 0, 10, 20 with unit
weights and threshold 15: the ends are not near each other directly, yet the
single returned cluster `[0, 1, 2]` is a connected component through the
middle entry. -/
theorem claim_C2_connected_components_witness :
    (cluster_sequences chainRecs 15 1 1 = [[0, 1, 2]] ∧
      near chainRecs 15 1 1 0 1 = true ∧ near chainRecs 15 1 1 1 2 = true ∧
      near chainRecs 15 1 1 0 2 = false) ∧
    (∃ i, i ∈ ([0, 1, 2] : List Nat) ∧
      ∀ j, (j ∈ ([0, 1, 2] : List Nat) ↔ j < chainRecs.length ∧ Reach chainRecs 15 1 1 i j)) :=
  ⟨⟨by simp [cluster_sequences, clusterLoop, expandLoop, near, calculate_distance,
      chainRecs, List.range_succ], by decide, by decide, by decide⟩,
    claim_C2_connected_components chainRecs 15 1 1 [0, 1, 2]
      (by simp [cluster_sequences, clusterLoop, expandLoop, near, calculate_distance,
        chainRecs, List.range_succ])⟩

/-- C3 counterexample: with one isolated entry discovered first and a pair of
near entries discovered second, the report is sorted by size descending but
carries ids `[2, 1]`, not the rank positions `[1, 2]`: `cluster_id` is the
discovery position, assigned before sorting, not the post-sort rank. -/
theorem claim_C3_rank_counterexample :
    (analyze_clusters (cluster_sequences tieRecs 21 4 1) tieRecs).map
        (fun r => (r.cluster_id, r.num_entries)) = [(2, 2), (1, 1)] ∧
    ¬ ((analyze_clusters (cluster_sequences tieRecs 21 4 1) tieRecs).map
          (fun r => r.cluster_id) =
        List.range' 1
          (analyze_clusters (cluster_sequences tieRecs 21 4 1) tieRecs).length) := by
  have hcl : cluster_sequences tieRecs 21 4 1 = [[0], [1, 2]] := by
    simp [cluster_sequences, clusterLoop, expandLoop, near, calculate_distance,
      tieRecs, List.range_succ]
  rw [hcl]
  constructor
  · simp [analyze_clusters, clusterData, clusterRecord, List.mergeSort, List.merge]
  · intro h
    rw [show (analyze_clusters [[0], [1, 2]] tieRecs).map (fun r => r.cluster_id) = [2, 1] by
      simp [analyze_clusters, clusterData, clusterRecord, List.mergeSort, List.merge]] at h
    rw [show (analyze_clusters [[0], [1, 2]] tieRecs).length = 2 by
      simp [analyze_clusters, clusterData]] at h
    simp [List.range'] at h

/-- C3 amended: `cluster_id` is the 1-based discovery position (assigned
before sorting), the emitted report is ordered by `num_entries` descending,
and ties preserve discovery order (the record with the smaller id comes
first); the id therefore need not equal the post-sort rank position. -/
theorem claim_C3_discovery_ids_sorted (clusters : List (List Nat)) (recs : List Entry) :
    (clusterData recs 1 clusters).map (fun r => r.cluster_id) =
        List.range' 1 clusters.length ∧
    List.Perm (analyze_clusters clusters recs) (clusterData recs 1 clusters) ∧
    (analyze_clusters clusters recs).Pairwise
      (fun a b => b.num_entries ≤ a.num_entries ∧
        (a.num_entries = b.num_entries → a.cluster_id < b.cluster_id)) :=
  ⟨clusterData_map_id recs 1 clusters, analyze_clusters_perm clusters recs,
    (analyze_clusters_sorted clusters recs).and (analyze_clusters_stable clusters recs)⟩

/-- C4 counterexample: two entries at the same position whose sequences
differ in one letter, clustered with the pipeline weights `4`/`1`: the
report's `avg_distance` is `2` (the distance function's own default
`letter_weight = 2`), while the mean recomputed with the pipeline default
`letter_weight = 4` would be `4`. -/
theorem claim_C4_weights_counterexample :
    (analyze_clusters (cluster_sequences pairRecs 21 4 1) pairRecs).map
        (fun r => r.avg_distance) = [2] ∧
    (analyze_clusters (cluster_sequences pairRecs 21 4 1) pairRecs).map
        (fun r => specAvgDistance 4 1 r.entries) = [4] := by
  have hcl : cluster_sequences pairRecs 21 4 1 = [[0, 1]] := by
    simp [cluster_sequences, clusterLoop, expandLoop, near, calculate_distance,
      pairRecs, List.range_succ]
  rw [hcl]
  constructor
  · simp [analyze_clusters, clusterData, clusterRecord, comb2, calculate_distance,
      pairRecs, Nat.dist]
    norm_num
  · simp [analyze_clusters, clusterData, clusterRecord, specAvgDistance, pairRecs,
      Finset.sum_range_succ, calculate_distance, Nat.dist]
    norm_num

/-- C4 amended: the summarizer computes `avg_distance` as the mean of the
pairwise distances with the distance function's own default weights
`letter_weight = 2`, `position_weight = 1` — independently of the weights
used for the clustering threshold decision. -/
theorem claim_C4_default_weights_avg (clusters : List (List Nat)) (recs : List Entry) :
    ∀ r ∈ analyze_clusters clusters recs,
      r.avg_distance = specAvgDistance 2 1 r.entries := by
  intro r hr
  obtain ⟨k, cl, _, rfl⟩ :=
    clusterData_mem recs 1 clusters r ((analyze_clusters_perm clusters recs).subset hr)
  exact clusterRecord_avg recs k cl

/-- C4 amended witness: the two-entry report record of the pair input indeed
has its average equal to the default-weight pair mean. -/
theorem claim_C4_default_weights_avg_witness :
    clusterRecord pairRecs 1 [0, 1] ∈ analyze_clusters [[0, 1]] pairRecs ∧
    (clusterRecord pairRecs 1 [0, 1]).avg_distance =
      specAvgDistance 2 1 (clusterRecord pairRecs 1 [0, 1]).entries :=
  ⟨by simp [analyze_clusters, clusterData],
    claim_C4_default_weights_avg [[0, 1]] pairRecs _ (by simp [analyze_clusters, clusterData])⟩

/-- C5: for non-empty sequences, `calculate_distance` is
`letter_weight * content_term + position_weight * position_term`, where the
content term counts position-by-position mismatches up to the shorter length
plus the length difference, and the position term is the absolute start
position difference. -/
theorem claim_C5_distance_formula (seq1 seq2 : List Char) (pos1 pos2 : Int) (lw pw : Nat)
    (_h1 : seq1 ≠ []) (_h2 : seq2 ≠ []) :
    calculate_distance seq1 seq2 pos1 pos2 lw pw =
      lw * ((∑ i ∈ Finset.range (min seq1.length seq2.length),
          if seq1.getD i 'A' ≠ seq2.getD i 'A' then 1 else 0) +
        (max seq1.length seq2.length - min seq1.length seq2.length)) +
      pw * (pos1 - pos2).natAbs := by
  unfold calculate_distance
  rw [zip_countP_eq_sum_range, nat_dist_eq_max_sub_min]

/-- C5 witness: the formula instantiated at `"ATG"` vs `"AT"`, positions 0
and 5, weights 2 and 1. -/
theorem claim_C5_distance_formula_witness :
    ("ATG".toList ≠ [] ∧ "AT".toList ≠ []) ∧
    calculate_distance "ATG".toList "AT".toList 0 5 2 1 =
      2 * ((∑ i ∈ Finset.range (min "ATG".toList.length "AT".toList.length),
          if "ATG".toList.getD i 'A' ≠ "AT".toList.getD i 'A' then 1 else 0) +
        (max "ATG".toList.length "AT".toList.length -
          min "ATG".toList.length "AT".toList.length)) +
      1 * ((0 : Int) - 5).natAbs :=
  ⟨⟨by decide, by decide⟩,
    claim_C5_distance_formula "ATG".toList "AT".toList 0 5 2 1 (by decide) (by decide)⟩

/-- C6: for the same input and fixed weights, raising the threshold never
increases the number of clusters. -/
theorem claim_C6_threshold_monotone (recs : List Entry) (lw pw t1 t2 : Nat) (h : t1 ≤ t2) :
    (cluster_sequences recs t2 lw pw).length ≤ (cluster_sequences recs t1 lw pw).length :=
  cluster_count_anti recs lw pw h

/-- C6 witness: the chain input with thresholds 5 and 15. -/
theorem claim_C6_threshold_monotone_witness :
    5 ≤ 15 ∧
    (cluster_sequences chainRecs 15 1 1).length ≤ (cluster_sequences chainRecs 5 1 1).length :=
  ⟨by decide, claim_C6_threshold_monotone chainRecs 1 1 5 15 (by decide)⟩

/-- C7: each pass of the outer loop strictly shrinks the unclustered pool,
so a fuel budget of the pool size always suffices: the loop terminates on
every finite input, agreeing with the unbounded recursion. -/
theorem claim_C7_terminates (recs : List Entry) (t lw pw : Nat) :
    (∀ (seed : Nat) (rest : List Nat),
      (expandLoop recs t lw pw [seed] rest []).2.length < (seed :: rest).length) ∧
    (∀ (fuel : Nat) (uncl : List Nat) (acc : List (List Nat)), uncl.length ≤ fuel →
      clusterLoopFuel recs t lw pw fuel uncl acc =
        some (clusterLoop recs t lw pw uncl acc)) :=
  ⟨fun seed rest => expandLoop_strict_shrink recs t lw pw seed rest,
    clusterLoopFuel_complete recs t lw pw⟩

/-- C7 witness: the chain input, seed 0, pool `[1, 2]`, and fuel 3 for the
full index list. -/
theorem claim_C7_terminates_witness :
    (expandLoop chainRecs 15 1 1 [0] [1, 2] []).2.length < ([0, 1, 2] : List Nat).length ∧
    ([0, 1, 2] : List Nat).length ≤ 3 ∧
    clusterLoopFuel chainRecs 15 1 1 3 [0, 1, 2] [] =
      some (clusterLoop chainRecs 15 1 1 [0, 1, 2] []) :=
  ⟨(claim_C7_terminates chainRecs 15 1 1).1 0 [1, 2], by decide,
    (claim_C7_terminates chainRecs 15 1 1).2 3 [0, 1, 2] [] (by decide)⟩

/-- C8: every size-1 cluster is reported with `avg_distance = 0` (the empty
pair sum over the guarded denominator), not an error or `NaN`. -/
theorem claim_C8_singleton_avg (clusters : List (List Nat)) (recs : List Entry) :
    ∀ r ∈ analyze_clusters clusters recs, r.num_entries = 1 → r.avg_distance = 0 := by
  intro r hr h1
  obtain ⟨k, cl, _, rfl⟩ :=
    clusterData_mem recs 1 clusters r ((analyze_clusters_perm clusters recs).subset hr)
  exact clusterRecord_singleton_avg recs k cl (by simpa [clusterRecord] using h1)

/-- C8 witness: a singleton cluster of the pair input. -/
theorem claim_C8_singleton_avg_witness :
    clusterRecord pairRecs 1 [0] ∈ analyze_clusters [[0]] pairRecs ∧
    (clusterRecord pairRecs 1 [0]).num_entries = 1 ∧
    (clusterRecord pairRecs 1 [0]).avg_distance = 0 :=
  ⟨by simp [analyze_clusters, clusterData], rfl,
    claim_C8_singleton_avg [[0]] pairRecs _ (by simp [analyze_clusters, clusterData]) rfl⟩

/-- C9: `calculate_distance` is symmetric in its two entries (sequences and
positions swapped together), for all weights. -/
theorem claim_C9_distance_symmetric (seq1 seq2 : List Char) (pos1 pos2 : Int) (lw pw : Nat) :
    calculate_distance seq1 seq2 pos1 pos2 lw pw =
      calculate_distance seq2 seq1 pos2 pos1 lw pw :=
  calculate_distance_comm seq1 seq2 pos1 pos2 lw pw

/-- C10: every returned cluster is non-empty; the empty input yields the
empty cluster list, and a one-entry input yields exactly one cluster `[0]`. -/
theorem claim_C10_nonempty_clusters (recs : List Entry) (t lw pw : Nat) :
    (∀ cl ∈ cluster_sequences recs t lw pw, cl ≠ []) ∧
    cluster_sequences [] t lw pw = [] ∧
    (∀ e : Entry, cluster_sequences [e] t lw pw = [[0]]) :=
  ⟨cluster_sequences_nonempty recs t lw pw, cluster_sequences_nil t lw pw,
    fun e => cluster_sequences_singleton e t lw pw⟩

/-- C10 witness: the chain input's single cluster is non-empty; empty and
one-entry inputs behave as stated. -/
theorem claim_C10_nonempty_clusters_witness :
    ([0, 1, 2] ∈ cluster_sequences chainRecs 15 1 1 ∧ ([0, 1, 2] : List Nat) ≠ []) ∧
    cluster_sequences [] 15 1 1 = [] ∧
    cluster_sequences [⟨"s1", 0, "ATG".toList⟩] 15 1 1 = [[0]] :=
  ⟨⟨by simp [cluster_sequences, clusterLoop, expandLoop, near, calculate_distance,
      chainRecs, List.range_succ],
    (claim_C10_nonempty_clusters chainRecs 15 1 1).1 [0, 1, 2]
      (by simp [cluster_sequences, clusterLoop, expandLoop, near, calculate_distance,
        chainRecs, List.range_succ])⟩,
    (claim_C10_nonempty_clusters chainRecs 15 1 1).2.1,
    (claim_C10_nonempty_clusters chainRecs 15 1 1).2.2 ⟨"s1", 0, "ATG".toList⟩⟩

end DNASeq
